import Mathlib

/-!
Verification of the codebase-dumper tool (src/main.rs) against its
natural-language specification.

The Rust program is embedded shallowly:

* text is `List Char` (Rust `String::len` counts bytes; for the ASCII data
  handled here character count and byte count coincide);
* the three comment-stripping regexes (`c_style_regex`, `script_style_regex`,
  `php_style_regex`) together with `Regex::replace_all` under the regex
  crate's leftmost-first match semantics are embedded as an explicit
  left-to-right scanner (`scanStep` / `scanAux`); the regexes only match a
  literal when its closing delimiter is present, `\\.` does not match a
  newline, and the block-comment body is lazy (stops at the first `*/`),
  all of which the scanner mirrors;
* `empty_lines_regex` (`(?m)(^\s*\n)+` replaced by a newline) is embedded as
  `collapseStep` / `collapseAux`: at a line start, a maximal whitespace run
  containing at least one newline is replaced, up to its last newline, by a
  single newline;
* the filesystem is an oracle (`existsFile` / `canon` functions), paths in
  the output-directory guard are component lists (Rust `Path::starts_with`
  is component-wise prefix), and `fs::canonicalize` failure is `none`;
* the chunked aggregation loop of `main` is a fold over the selected files
  (`aggStep` / `aggRun`), with a parallel unit-level fold (`aggStepU`)
  whose joined chunks coincide with the byte-level chunks, showing chunks
  are concatenations of whole file contributions;
* `expand_brace_patterns` pops from the end of a queue, but its result is
  deduplicated and sorted, so it equals the sorted deduplication of the
  full recursive expansion of each input pattern (`expandOne`), which is
  how it is embedded here.
-/

namespace CodebaseDumper

/-! ### Basic characters and helpers -/

/-- Backtick character (written via its code point). -/
def bqChar : Char := Char.ofNat 96

/-- Double-quote character. -/
def dqChar : Char := Char.ofNat 34

/-- Single-quote character. -/
def sqChar : Char := Char.ofNat 39

/-- Backslash character. -/
def bsChar : Char := Char.ofNat 92

/-- Opening curly brace. -/
def obChar : Char := Char.ofNat 123

/-- Closing curly brace. -/
def cbChar : Char := Char.ofNat 125

/-- Whitespace as used by the regex class `\s` and by Rust `str::trim`
(ASCII fragment: space, tab, newline, carriage return, vertical tab,
form feed). -/
def isWs (c : Char) : Bool :=
  c == ' ' || c == '\t' || c == '\n' || c == '\r' ||
  c == Char.ofNat 11 || c == Char.ofNat 12

/-- Rust `str::trim`: strip leading and trailing whitespace. -/
def rustTrim (s : List Char) : List Char :=
  ((s.dropWhile isWs).reverse.dropWhile isWs).reverse

/-! ### The comment/string scanner

Embedding of `Regex::replace_all` with the three style regexes of
`main.rs` (lines 109-122).  Each regex is an alternation
`(?P<keep>literals)|(?P<drop>comments)` and the replacement closure keeps
the `keep` capture and deletes `drop` matches.  Under leftmost-first
semantics this is a left-to-right scan that, at each position, first tries
the literal alternatives in order (backtick, double quote, single quote),
then the comment alternatives (block, line, hash), and otherwise copies
one character. -/

/-- Body of a quoted literal after its opening delimiter `q`:
`[^q\\]*(?:\\.[^q\\]*)*q`.  Returns the matched body including the closing
delimiter, and the rest.  `\\.` does not match a newline, and the negated
character classes do not match `q` or a backslash, so the first unescaped
`q` closes the literal; a backslash followed by a newline, or a missing
closing delimiter, makes the whole literal fail to match. -/
def litBodyTake (q : Char) : List Char → Option (List Char × List Char)
  | [] => none
  | c :: rest =>
    if c == q then some ([c], rest)
    else if c == bsChar then
      match rest with
      | [] => none
      | d :: rest2 =>
        if d == '\n' then none
        else
          match litBodyTake q rest2 with
          | none => none
          | some (l, r) => some (c :: d :: l, r)
    else
      match litBodyTake q rest with
      | none => none
      | some (l, r) => some (c :: l, r)

/-- Lazy block-comment body `[\s\S]*?\*/`: consume up to and including the
first occurrence of the two-character closer; fail if there is none. -/
def blockEndTake : List Char → Option (List Char × List Char)
  | [] => none
  | c :: rest =>
    if c == '*' then
      match rest with
      | [] => none
      | d :: rest2 =>
        if d == '/' then some ([c, d], rest2)
        else
          match blockEndTake rest with
          | none => none
          | some (l, r) => some (c :: l, r)
    else
      match blockEndTake rest with
      | none => none
      | some (l, r) => some (c :: l, r)

/-- One step of the replace-all scan at a position whose first character is
`c`.  The flags select which alternatives the style's regex has:
`bt` = backtick literals, `cc` = `//` and `/* */` comments, `hash` = `#`
comments.  Returns the emitted output fragment and the remaining input. -/
def scanStep (bt cc hash : Bool) (c : Char) (rest : List Char) :
    List Char × List Char :=
  if bt && c == bqChar then
    match litBodyTake bqChar rest with
    | some (l, r) => (c :: l, r)
    | none => ([c], rest)
  else if c == dqChar then
    match litBodyTake dqChar rest with
    | some (l, r) => (c :: l, r)
    | none => ([c], rest)
  else if c == sqChar then
    match litBodyTake sqChar rest with
    | some (l, r) => (c :: l, r)
    | none => ([c], rest)
  else if cc && c == '/' then
    match rest with
    | [] => ([c], [])
    | d :: rest2 =>
      if d == '*' then
        match blockEndTake rest2 with
        | some (_, r) => ([], r)
        | none => ([c], rest)
      else if d == '/' then
        ([], rest2.dropWhile (fun ch => !(ch == '\n')))
      else ([c], rest)
  else if hash && c == '#' then
    ([], rest.dropWhile (fun ch => !(ch == '\n')))
  else ([c], rest)

/-- Fuel-indexed scan driver; every step consumes at least one input
character, so fuel equal to the input length always suffices. -/
def scanAux (bt cc hash : Bool) : Nat → List Char → List Char
  | 0, s => s
  | Nat.succ _, [] => []
  | Nat.succ n, c :: rest =>
    let p := scanStep bt cc hash c rest
    p.1 ++ scanAux bt cc hash n p.2

/-- The comment-stripping pass (`replace_all` with one of the three style
regexes). -/
def scanText (bt cc hash : Bool) (s : List Char) : List Char :=
  scanAux bt cc hash s.length s

/-! ### Blank-line collapsing and the full sanitizer -/

/-- Length of the match of `(?m)(^\s*\n)+` at a line start: the maximal run
of whitespace, cut after its last newline; `0` when the run contains no
newline (no match). -/
def wsMatchLen (s : List Char) : Nat :=
  let w := s.takeWhile isWs
  w.length - (w.reverse.takeWhile (fun c => !(c == '\n'))).length

/-- One step of the blank-line collapse scan.  `atStart` records whether
the current position is at a line start (where `(?m)^` matches).  Returns
the emitted fragment, the line-start flag for the next position, and the
remaining input. -/
def collapseStep (atStart : Bool) (c : Char) (rest : List Char) :
    List Char × Bool × List Char :=
  if atStart && !(wsMatchLen (c :: rest) == 0) then
    (['\n'], true, (c :: rest).drop (wsMatchLen (c :: rest)))
  else ([c], c == '\n', rest)

/-- Fuel-indexed driver for the blank-line collapse. -/
def collapseAux : Nat → Bool → List Char → List Char
  | 0, _, s => s
  | Nat.succ _, _, [] => []
  | Nat.succ n, atStart, c :: rest =>
    let p := collapseStep atStart c rest
    p.1 ++ collapseAux n p.2.1 p.2.2

/-- `empty_lines_regex.replace_all(text, "\n")`. -/
def collapseEmptyLines (s : List Char) : List Char :=
  collapseAux s.length true s

/-- Style family, from the `match current_ext.as_str()` in `main`
(lines 243-248).  The match is total with default arm `c_style_regex`;
there is no passthrough family. -/
inductive Style where
  | cstyle
  | script
  | php
deriving DecidableEq

/-- Comment stripping for one style family (the corresponding regex's
`replace_all`). -/
def scanComments (st : Style) (s : List Char) : List Char :=
  match st with
  | .cstyle => scanText true true false s
  | .script => scanText false false true s
  | .php => scanText true true true s

/-- The full sanitize pipeline when `--clean` is set: strip comments,
collapse blank-line runs, trim the result (main.rs lines 250-258). -/
def sanitize (st : Style) (s : List Char) : List Char :=
  rustTrim (collapseEmptyLines (scanComments st s))

/-- Extensions routed to the script-style regex (main.rs line 244). -/
def scriptExts : List String :=
  ["py", "rb", "pl", "sh", "yaml", "yml", "env", "toml", "dockerfile",
   "makefile"]

/-- Style classification from the lowercased extension and exact file name
(main.rs lines 243-248). -/
def styleOf (ext fileName : String) : Style :=
  if scriptExts.contains ext then .script
  else if ext = "php" then .php
  else if fileName = "Dockerfile" || fileName = "Makefile" then .script
  else .cstyle

/-- Per-file content processing (main.rs lines 235-261): with the clean
flag the style's sanitize pipeline runs, otherwise the content passes
through untouched.  `ext` is the lowercased extension (empty when the file
has none), `fileName` the exact file name. -/
def processContent (clean : Bool) (ext fileName : String)
    (content : List Char) : List Char :=
  if clean then sanitize (styleOf ext fileName) content else content

/-! ### Brace pattern expansion

Embedding of `expand_brace_patterns` (main.rs lines 331-352).  The Rust
code pops patterns from the end of a work queue, splits the first pattern
matching `^(.*?)\{([^{}]+)}(.*)$` into one pattern per comma-separated
item (trimmed), re-queues the products, and finally deduplicates through a
`HashSet` and sorts.  Since the result is deduplicated and sorted, the
queue order is irrelevant: the embedding fully expands each input pattern
recursively (`expandOne`) and then deduplicates and sorts. -/

/-- Search for the leftmost match of `\{([^{}]+)}` with a newline-free
prefix (the lazy `(.*?)`, where `.` does not match a newline) and a
newline-free suffix reaching the end (`(.*)$`).  `pre` accumulates the
scanned prefix in reverse. -/
def braceSplitGo (pre : List Char) : List Char →
    Option (List Char × List Char × List Char)
  | [] => none
  | c :: rest =>
    if c == '\n' then none
    else if c == obChar then
      let content := rest.takeWhile (fun ch => !(ch == obChar) && !(ch == cbChar))
      let rest2 := rest.dropWhile (fun ch => !(ch == obChar) && !(ch == cbChar))
      match rest2 with
      | [] => braceSplitGo (c :: pre) rest
      | d :: suf =>
        if d == cbChar && !content.isEmpty && suf.all (fun ch => !(ch == '\n'))
        then some (pre.reverse, content, suf)
        else braceSplitGo (c :: pre) rest
    else braceSplitGo (c :: pre) rest

/-- Leftmost well-formed brace group of a pattern, as matched by the Rust
regex `^(.*?)\{([^{}]+)}(.*)$`:  `some (prefix, content, suffix)`, or
`none` when the pattern has no such group. -/
def braceSplit (s : List Char) : Option (List Char × List Char × List Char) :=
  braceSplitGo [] s

/-- Number of brace characters in a pattern; each expansion step removes
exactly two of them, which bounds the recursion. -/
def braceCount (s : List Char) : Nat :=
  s.countP (fun c => c == obChar || c == cbChar)

/-- `content.split(',')`. -/
def splitOnComma : List Char → List (List Char)
  | [] => [[]]
  | c :: rest =>
    if c == ',' then [] :: splitOnComma rest
    else
      match splitOnComma rest with
      | [] => [[c]]
      | g :: gs => (c :: g) :: gs

/-- Full recursive expansion of a single pattern: while a brace group
matches, replace the pattern by one pattern per comma-separated (trimmed)
item.  Fuel-indexed; `braceCount` fuel always suffices because each
product of a group has two brace characters fewer. -/
def expandOneAux : Nat → List Char → List (List Char)
  | 0, p => [p]
  | Nat.succ n, p =>
    match braceSplit p with
    | none => [p]
    | some (pre, content, suf) =>
      (splitOnComma content).flatMap
        (fun part => expandOneAux n (pre ++ rustTrim part ++ suf))

/-- Full expansion of one pattern. -/
def expandOne (p : List Char) : List (List Char) :=
  expandOneAux (braceCount p) p

/-- Lexicographic order on patterns, matching Rust's byte-wise `String`
ordering (UTF-8 byte order and code-point order agree). -/
def lexLe : List Char → List Char → Bool
  | [], _ => true
  | _ :: _, [] => false
  | a :: as_, b :: bs =>
    if a == b then lexLe as_ bs else decide (a < b)

/-- Sorted insertion for `lexLe`. -/
def insertLe (a : List Char) : List (List Char) → List (List Char)
  | [] => [a]
  | b :: bs => if lexLe a b then a :: b :: bs else b :: insertLe a bs

/-- Sorting by `lexLe` (extensionally equal to Rust's `sort` on the
deduplicated pattern list: both produce the unique sorted arrangement of a
duplicate-free list). -/
def sortPatterns : List (List Char) → List (List Char)
  | [] => []
  | a :: as_ => insertLe a (sortPatterns as_)

/-- `expand_brace_patterns`: expand every pattern, deduplicate (the
`HashSet`), sort. -/
def expandBracePatterns (l : List (List Char)) : List (List Char) :=
  sortPatterns (l.flatMap expandOne).dedup

/-! ### Output-directory safety guard

Embedding of main.rs lines 59-61 and 74-94.  Paths are component lists
(`Path::starts_with` and `Path` equality are component-wise), and the
filesystem is an oracle: `pathExists` for `Path::exists`, `canon` for
`fs::canonicalize` with `none` for failure.  `canonicalize(p).unwrap_or(p)`
is `(canon p).getD p`. -/

/-- Filesystem oracle for the guard phase. -/
structure GuardFS where
  pathExists : List String → Bool
  canon : List String → Option (List String)

/-- Actions the guard phase performs: the directory it recursively deletes
(if any) and the directory it creates (if any);  main.rs lines 84-93
recreate the wiped directory, so a wipe implies a create of the same
path. -/
structure GuardResult where
  wiped : Option (List String)
  created : Option (List String)
deriving DecidableEq

/-- `Path::parent` on a component list: `none` for the empty path, else
drop the last component (the parent of a bare file name is the empty
path, as in Rust). -/
def pathParent : List String → Option (List String)
  | [] => none
  | l => some l.dropLast

/-- `fs::canonicalize(p).unwrap_or(p)`. -/
def fallbackCanon (fs : GuardFS) (p : List String) : List String :=
  (fs.canon p).getD p

/-- The safety condition of main.rs line 82: output is not the source and
the source is not inside the output, compared on the fallback-canonical
forms. -/
def guardSafe (fs : GuardFS) (srcPath parent : List String) : Bool :=
  !(fallbackCanon fs parent == fallbackCanon fs srcPath) &&
  !((fallbackCanon fs parent).isPrefixOf (fallbackCanon fs srcPath))

/-- The output-directory setup of main.rs lines 74-94, taking the source
path as `main` holds it at that point. -/
def outputDirGuard (fs : GuardFS) (srcPath outPattern : List String) :
    GuardResult :=
  match pathParent outPattern with
  | none => ⟨none, none⟩
  | some parent =>
    if fs.pathExists parent && !(parent == ["."]) then
      if guardSafe fs srcPath parent then ⟨some parent, some parent⟩
      else ⟨none, none⟩
    else if !fs.pathExists parent && !(parent == []) then ⟨none, some parent⟩
    else ⟨none, none⟩

/-- The guard as `main` runs it: the source path is first canonicalized
when possible (main.rs lines 59-61), then the setup check runs. -/
def mainGuard (fs : GuardFS) (srcRaw outPattern : List String) : GuardResult :=
  outputDirGuard fs (fallbackCanon fs srcRaw) outPattern

/-! ### File selection

Embedding of the walk-selection loop (main.rs lines 136-161) and the
external-include pass (lines 164-180).  The walk itself is an oracle: a
list of directory entries surviving `filter_entry`, each with its path
components.  Selection state and deduplication operate on the path
strings, as in the Rust code. -/

/-- A directory entry produced by the walk. -/
structure WalkEntry where
  comps : List String
  isFile : Bool
deriving DecidableEq

/-- `entry.file_name()`: the last path component. -/
def lastComp (e : WalkEntry) : String :=
  e.comps.getLast?.getD ""

/-- Join path components with the path separator. -/
def joinSlash : List String → List Char
  | [] => []
  | [c] => c.data
  | c :: d :: rest => c.data ++ '/' :: joinSlash (d :: rest)

/-- `path.to_string_lossy()`. -/
def pathStrOf (e : WalkEntry) : String :=
  String.mk (joinSlash e.comps)

/-- `Path::extension` of a file name: the part after the last dot, absent
when there is no dot or the only dot is the leading character. -/
def extOf (name : String) : Option String :=
  let revTail := name.data.reverse.takeWhile (fun c => !(c == '.'))
  if revTail.length == name.data.length then none
  else if name.data.length == revTail.length + 1 then none
  else some (String.mk revTail.reverse)

/-- The extension rule of selection (main.rs lines 144-148); the
extension is lowercased before comparison. -/
def matchesExt (targetExt : String) (e : WalkEntry) : Bool :=
  match extOf (lastComp e) with
  | some x => String.mk (x.data.map Char.toLower) == targetExt
  | none => false

/-- The include rule of selection (main.rs lines 150-155): exact file-name
match or path-suffix match. -/
def matchesInclude (includes : List String) (e : WalkEntry) : Bool :=
  includes.any (fun inc =>
    lastComp e == inc || inc.data.isSuffixOf (joinSlash e.comps))

/-- The walk-selection loop: one push per entry when either rule fires. -/
def selectFromWalk (targetExt : String) (includes : List String)
    (walk : List WalkEntry) : List String :=
  walk.foldl
    (fun acc e =>
      if e.isFile && (matchesExt targetExt e || matchesInclude includes e)
      then acc ++ [pathStrOf e] else acc)
    []

/-- Filesystem oracle for the external-include pass: `existsFile p` is
`Path::exists && Path::is_file`, `canon` is `fs::canonicalize` on path
strings. -/
structure SelFS where
  existsFile : String → Bool
  canon : String → Option String

/-- One iteration of the external-include pass (main.rs lines 164-180):
an include naming an existing file is appended unless some
already-selected path canonicalizes to the include's canonical path. -/
def externalStep (fs : SelFS) (acc : List String) (inc : String) :
    List String :=
  if fs.existsFile inc then
    let absInc := (fs.canon inc).getD inc
    if acc.any (fun p =>
        match fs.canon p with
        | some cp => cp == absInc
        | none => false)
    then acc
    else acc ++ [inc]
  else acc

/-- The external-include pass: fold `externalStep` over the include
patterns. -/
def addExternalIncludes (fs : SelFS) (includes : List String)
    (selected : List String) : List String :=
  includes.foldl (externalStep fs) selected

/-- The complete processed-file list. -/
def selectAll (fs : SelFS) (targetExt : String) (includes : List String)
    (walk : List WalkEntry) : List String :=
  addExternalIncludes fs includes (selectFromWalk targetExt includes walk)

/-! ### Exclusion rules -/

/-- Substring test (Rust `str::contains` with a string pattern). -/
def strContainsSub (needle : String) (hay : List Char) : Bool :=
  hay.tails.any (fun t => needle.data.isPrefixOf t)

/-- Character-membership test (Rust `str::contains` with a `char`
pattern). -/
def strHasChar (c : Char) (s : String) : Bool :=
  s.data.any (fun x => x == c)

/-- `is_excluded_entry` (main.rs lines 293-313): a fixed `.git` rule at
depth above zero, an exact path-component match for any exclude, and a
full-path substring match for excludes containing a path separator. -/
def isExcludedEntry (comps : List String) (depth : Nat)
    (excludes : List String) : Bool :=
  let pathStr := joinSlash comps
  let fileName := comps.getLast?.getD ""
  (decide (depth > 0) && fileName == ".git") ||
  excludes.any (fun ex =>
    comps.any (fun c => c == ex) ||
    ((strHasChar '/' ex || strHasChar (Char.ofNat 92) ex) &&
      strContainsSub ex pathStr))

/-- The tree renderer's entry filter (main.rs lines 411-418): hide
dot-prefixed names and names exactly equal to an exclude pattern. -/
def treeEntryHidden (name : String) (excludes : List String) : Bool :=
  (match name.data with
    | c :: _ => c == '.'
    | [] => false) ||
  excludes.any (fun ex => name == ex)

/-! ### Chunked aggregation

Embedding of the processing loop of `main` (lines 207-286).  The buffer is
seeded with the tree preamble; for each file with non-empty processed
content a header+content+newline contribution is appended, after first
flushing a non-empty buffer that the append would push over the limit;
a final non-empty buffer is flushed at the end. -/

/-- The per-file header `\n--- FILE: {:?} ---\n` (the Rust debug format
wraps the path in double quotes; paths handled here contain no characters
the debug format would escape). -/
def headerOf (p : String) : List Char :=
  "\n--- FILE: \"".data ++ p.data ++ "\" ---\n".data

/-- A file's whole contribution to the output: header, processed content,
trailing newline (its length is the Rust `chunk_len`). -/
def contribOf (p : String) (content : List Char) : List Char :=
  headerOf p ++ content ++ ['\n']

/-- Aggregation state: the in-memory buffer and the chunks already written
to disk, in order. -/
structure AggState where
  buffer : List Char
  chunks : List (List Char)

/-- One loop iteration for a file with processed content `it.2` at path
`it.1` (main.rs lines 263-276): nothing happens for empty content;
otherwise flush first when the buffer is non-empty and would overflow,
then append. -/
def aggStep (limit : Nat) (st : AggState) (it : String × List Char) :
    AggState :=
  if it.2.isEmpty then st
  else
    let contrib := contribOf it.1 it.2
    let st1 :=
      if !st.buffer.isEmpty && decide (st.buffer.length + contrib.length > limit)
      then AggState.mk [] (st.chunks ++ [st.buffer])
      else st
    AggState.mk (st1.buffer ++ contrib) st1.chunks

/-- The whole aggregation run: fold the loop over the files starting from
the preamble, then flush a non-empty final buffer (main.rs lines
281-283). -/
def aggRun (limit : Nat) (preamble : List Char)
    (items : List (String × List Char)) : List (List Char) :=
  let st := items.foldl (aggStep limit) (AggState.mk preamble [])
  if st.buffer.isEmpty then st.chunks else st.chunks ++ [st.buffer]

/-- Unit-level mirror of the aggregation state: the buffer and each chunk
are kept as lists of whole units (the preamble, or one file's
contribution) instead of flat character lists. -/
structure AggStateU where
  buffer : List (List Char)
  chunks : List (List (List Char))

/-- Unit-level mirror of `aggStep`, using the summed unit lengths for the
limit check. -/
def aggStepU (limit : Nat) (st : AggStateU) (it : String × List Char) :
    AggStateU :=
  if it.2.isEmpty then st
  else
    let contrib := contribOf it.1 it.2
    let st1 :=
      if !st.buffer.isEmpty &&
          decide ((st.buffer.map List.length).sum + contrib.length > limit)
      then AggStateU.mk [] (st.chunks ++ [st.buffer])
      else st
    AggStateU.mk (st1.buffer ++ [contrib]) st1.chunks

/-- Unit-level aggregation run. -/
def aggRunU (limit : Nat) (preambleUnits : List (List Char))
    (items : List (String × List Char)) : List (List (List Char)) :=
  let st := items.foldl (aggStepU limit) (AggStateU.mk preambleUnits [])
  if st.buffer.isEmpty then st.chunks else st.chunks ++ [st.buffer]

/-- The post-selection phase of `main` (lines 189-286): with zero selected
files the run returns before creating the buffer or writing anything
(line 192-194); otherwise the chunks produced by the aggregation run are
written.  `items` pairs each selected path with its processed content. -/
def mainProcess (limit : Nat) (preamble : List Char)
    (items : List (String × List Char)) : List (List Char) :=
  if items.length == 0 then [] else aggRun limit preamble items

/-! ### Scanner lemmas -/

theorem litBodyTake_append {q : Char} (s : List Char) :
    ∀ (l r : List Char), litBodyTake q s = some (l, r) → s = l ++ r ∧ l ≠ [] := by
  induction s using litBodyTake.induct q with
  | case1 => simp [litBodyTake]
  | case2 d rest2 hq =>
    intro l r h
    rw [litBodyTake.eq_def] at h
    simp [hq] at h
    obtain ⟨rfl, rfl⟩ := h
    simp
  | case3 d hq hbs =>
    intro l r h
    rw [litBodyTake.eq_def] at h
    simp [hq, hbs] at h
  | case4 d hq hbs d1 rest2 hnl =>
    intro l r h
    rw [litBodyTake.eq_def] at h
    simp [hq, hbs, hnl] at h
  | case5 d hq hbs d1 rest2 hnl hnone ih =>
    intro l r h
    rw [litBodyTake.eq_def] at h
    simp [hq, hbs, hnl, hnone] at h
  | case6 d hq hbs d1 rest2 hnl l' r' hsome ih =>
    intro l r h
    rw [litBodyTake.eq_def] at h
    simp [hq, hbs, hnl, hsome] at h
    obtain ⟨rfl, rfl⟩ := h
    obtain ⟨h1, -⟩ := ih l' r' hsome
    simp [h1]
  | case7 d rest2 hq hbs hnone ih =>
    intro l r h
    rw [litBodyTake.eq_def] at h
    simp [hq, hbs, hnone] at h
  | case8 d rest2 hq hbs l' r' hsome ih =>
    intro l r h
    rw [litBodyTake.eq_def] at h
    simp [hq, hbs, hsome] at h
    obtain ⟨rfl, rfl⟩ := h
    obtain ⟨h1, -⟩ := ih l' r' hsome
    simp [h1]

theorem blockEndTake_append (s : List Char) :
    ∀ (l r : List Char), blockEndTake s = some (l, r) → s = l ++ r ∧ l ≠ [] := by
  induction s using blockEndTake.induct with
  | case1 => simp [blockEndTake]
  | case2 d hstar =>
    intro l r h
    rw [blockEndTake.eq_def] at h
    simp [hstar] at h
  | case3 d hstar d1 rest2 hsl =>
    intro l r h
    rw [blockEndTake.eq_def] at h
    simp [hstar, hsl] at h
    obtain ⟨rfl, rfl⟩ := h
    simp
  | case4 d hstar d1 rest2 hsl hnone ih =>
    intro l r h
    rw [blockEndTake.eq_def] at h
    simp [hstar, hsl, hnone] at h
  | case5 d hstar d1 rest2 hsl l' r' hsome ih =>
    intro l r h
    rw [blockEndTake.eq_def] at h
    simp [hstar, hsl, hsome] at h
    obtain ⟨rfl, rfl⟩ := h
    obtain ⟨h1, -⟩ := ih l' r' hsome
    simp [h1]
  | case6 d rest2 hstar hnone ih =>
    intro l r h
    rw [blockEndTake.eq_def] at h
    simp [hstar, hnone] at h
  | case7 d rest2 hstar l' r' hsome ih =>
    intro l r h
    rw [blockEndTake.eq_def] at h
    simp [hstar, hsome] at h
    obtain ⟨rfl, rfl⟩ := h
    obtain ⟨h1, -⟩ := ih l' r' hsome
    simp [h1]

theorem litBodyTake_snd_length {q : Char} {s l r : List Char}
    (h : litBodyTake q s = some (l, r)) : r.length ≤ s.length := by
  obtain ⟨h1, -⟩ := litBodyTake_append s l r h
  subst h1
  simp

theorem blockEndTake_snd_length {s l r : List Char}
    (h : blockEndTake s = some (l, r)) : r.length ≤ s.length := by
  obtain ⟨h1, -⟩ := blockEndTake_append s l r h
  subst h1
  simp

theorem dropWhile_length_le (p : Char → Bool) (l : List Char) :
    (l.dropWhile p).length ≤ l.length :=
  (List.dropWhile_sublist p).length_le

theorem scanStep_snd_length (bt cc hash : Bool) (c : Char) (rest : List Char) :
    (scanStep bt cc hash c rest).2.length ≤ rest.length := by
  unfold scanStep
  repeat' split
  all_goals simp only
  any_goals exact Nat.le_refl _
  any_goals (rename_i heq; exact litBodyTake_snd_length heq)
  any_goals simp
  · rename_i heq
    exact le_trans (blockEndTake_snd_length heq) (by simp)
  · exact le_trans (dropWhile_length_le _ _) (by simp)
  · exact dropWhile_length_le _ _

theorem scanAux_nil (bt cc hash : Bool) (n : Nat) :
    scanAux bt cc hash n [] = [] := by
  cases n <;> simp [scanAux]

theorem scanAux_fuel (bt cc hash : Bool) :
    ∀ (n m : Nat) (s : List Char), s.length ≤ n → s.length ≤ m →
      scanAux bt cc hash n s = scanAux bt cc hash m s := by
  intro n
  induction n with
  | zero =>
    intro m s hn _
    have hs : s = [] := by
      cases s
      · rfl
      · simp at hn
    subst hs
    rw [scanAux_nil, scanAux_nil]
  | succ n ih =>
    intro m s hn hm
    cases s with
    | nil => rw [scanAux_nil, scanAux_nil]
    | cons c rest =>
      cases m with
      | zero => simp at hm
      | succ m' =>
        simp only [scanAux]
        congr 1
        have hlen := scanStep_snd_length bt cc hash c rest
        apply ih
        · simp at hn
          omega
        · simp at hm
          omega

theorem scanText_cons (bt cc hash : Bool) (c : Char) (rest : List Char) :
    scanText bt cc hash (c :: rest) =
      (scanStep bt cc hash c rest).1 ++
        scanText bt cc hash (scanStep bt cc hash c rest).2 := by
  unfold scanText
  have h1 : (c :: rest).length = rest.length + 1 := by simp
  rw [h1]
  simp only [scanAux]
  congr 1
  apply scanAux_fuel
  · exact scanStep_snd_length bt cc hash c rest
  · exact Nat.le_refl _


theorem litBodyTake_none_of_not_mem {q : Char} (s : List Char) :
    (∀ c ∈ s, ¬c = q) → litBodyTake q s = none := by
  induction s using litBodyTake.induct q with
  | case1 => intro _; simp [litBodyTake]
  | case2 d rest2 hq =>
    intro hmem
    exact absurd (by simpa using hq) (hmem d (by simp))
  | case3 d hq hbs =>
    intro _
    rw [litBodyTake.eq_def]
    simp [hq, hbs]
  | case4 d hq hbs d1 rest2 hnl =>
    intro _
    rw [litBodyTake.eq_def]
    simp [hq, hbs, hnl]
  | case5 d hq hbs d1 rest2 hnl hnone ih =>
    intro _
    rw [litBodyTake.eq_def]
    simp [hq, hbs, hnl, hnone]
  | case6 d hq hbs d1 rest2 hnl l' r' hsome ih =>
    intro hmem
    have hn : litBodyTake q rest2 = none := ih (fun c hc => hmem c (by simp [hc]))
    rw [hn] at hsome
    cases hsome
  | case7 d rest2 hq hbs hnone ih =>
    intro _
    rw [litBodyTake.eq_def]
    simp [hq, hbs, hnone]
  | case8 d rest2 hq hbs l' r' hsome ih =>
    intro hmem
    have hn : litBodyTake q rest2 = none := ih (fun c hc => hmem c (by simp [hc]))
    rw [hn] at hsome
    cases hsome

/-- Whether the two-character block closer occurs anywhere in the text. -/
def hasStarSlash : List Char → Bool
  | [] => false
  | [_] => false
  | c :: d :: rest => (c == '*' && d == '/') || hasStarSlash (d :: rest)

theorem hasStarSlash_cons {c : Char} {rest : List Char}
    (h : hasStarSlash (c :: rest) = false) : hasStarSlash rest = false := by
  cases rest with
  | nil => rfl
  | cons d rest2 =>
    rw [hasStarSlash] at h
    simpa using And.right (by simpa using h)

theorem blockEndTake_none (s : List Char) :
    hasStarSlash s = false → blockEndTake s = none := by
  induction s with
  | nil => intro _; rfl
  | cons c rest ih =>
    intro h
    have hrest := hasStarSlash_cons h
    rw [blockEndTake.eq_def]
    cases rest with
    | nil => simp [blockEndTake]
    | cons d rest2 =>
      have hcd : ¬(c = '*' ∧ d = '/') := by
        rw [hasStarSlash] at h
        intro ⟨h1, h2⟩
        subst h1
        subst h2
        simp at h
      by_cases hc : c == '*'
      · have hd : (d == '/') = false := by
          rcases Bool.eq_false_or_eq_true (d == '/') with hd | hd
          · exact absurd ⟨by simpa using hc, by simpa using hd⟩ hcd
          · exact hd
        simp [hc, hd, ih hrest]
      · simp [hc, ih hrest]

theorem scanStep_lit (bt cc hash : Bool) (q : Char)
    (hq : (q = bqChar ∧ bt = true) ∨ q = dqChar ∨ q = sqChar)
    (tail l r : List Char) (h : litBodyTake q tail = some (l, r)) :
    scanStep bt cc hash q tail = (q :: l, r) := by
  rcases hq with ⟨rfl, rfl⟩ | rfl | rfl
  · unfold scanStep
    simp [h]
  · unfold scanStep
    have hne : (dqChar == bqChar) = false := by decide
    simp [hne, h]
  · unfold scanStep
    have hne : (sqChar == bqChar) = false := by decide
    have hne2 : (sqChar == dqChar) = false := by decide
    simp [hne, hne2, h]

theorem scanStep_lit_none (bt cc hash : Bool) (q : Char)
    (hq : (q = bqChar ∧ bt = true) ∨ q = dqChar ∨ q = sqChar)
    (tail : List Char) (h : litBodyTake q tail = none) :
    scanStep bt cc hash q tail = ([q], tail) := by
  rcases hq with ⟨rfl, rfl⟩ | rfl | rfl
  · unfold scanStep
    simp [h]
  · unfold scanStep
    have hne : (dqChar == bqChar) = false := by decide
    simp [hne, h]
  · unfold scanStep
    have hne : (sqChar == bqChar) = false := by decide
    have hne2 : (sqChar == dqChar) = false := by decide
    simp [hne, hne2, h]

theorem scanStep_block_none (bt hash : Bool) (rest : List Char)
    (h : blockEndTake rest = none) :
    scanStep bt true hash '/' ('*' :: rest) = (['/'], '*' :: rest) := by
  unfold scanStep
  have h1 : ('/' == bqChar) = false := by decide
  have h2 : ('/' == dqChar) = false := by decide
  have h3 : ('/' == sqChar) = false := by decide
  simp [h1, h2, h3, h]

theorem scanText_lit (bt cc hash : Bool) (q : Char)
    (hq : (q = bqChar ∧ bt = true) ∨ q = dqChar ∨ q = sqChar)
    (tail l r : List Char) (h : litBodyTake q tail = some (l, r)) :
    scanText bt cc hash (q :: tail) = (q :: l) ++ scanText bt cc hash r := by
  rw [scanText_cons, scanStep_lit bt cc hash q hq tail l r h]


/-- C2 counterexample data: a double-quoted literal containing a blank-line
run and a comment opener; the whole input is that single literal. -/
def c2CexTail : List Char := "a\n\n\n//\"".data

/-- The counterexample input for C2. -/
def c2CexInput : List Char := dqChar :: c2CexTail

/-- C2 counterexample: the input is a single well-formed double-quoted
literal (whose contents contain the comment opener), yet the clean
pipeline alters it because the blank-line collapse pass also rewrites
whitespace runs inside kept literals. -/
theorem c2_sanitize_alters_literal_cex :
    litBodyTake dqChar c2CexTail = some (c2CexTail, [])
    ∧ processContent true "js" "app.js" c2CexInput ≠ c2CexInput := by
  constructor
  · decide
  · decide

/-- C2 (amended): the comment-stripping stage preserves every well-formed
double-quoted, single-quoted, or backtick literal verbatim, even when its
contents contain a comment opener; and the concrete example sanitizes to
itself through the full pipeline. -/
theorem c2_literal_preservation :
    (∀ (q : Char) (tail l r : List Char),
        q = bqChar ∨ q = dqChar ∨ q = sqChar →
        litBodyTake q tail = some (l, r) →
        scanComments Style.cstyle (q :: tail) =
          (q :: l) ++ scanComments Style.cstyle r)
    ∧ processContent true "js" "app.js" ("x = \"http://example\"".data)
        = "x = \"http://example\"".data := by
  constructor
  · intro q tail l r hq h
    have hq2 : (q = bqChar ∧ true = true) ∨ q = dqChar ∨ q = sqChar := by
      rcases hq with rfl | rfl | rfl
      · exact Or.inl ⟨rfl, rfl⟩
      · exact Or.inr (Or.inl rfl)
      · exact Or.inr (Or.inr rfl)
    exact scanText_lit true true false q hq2 tail l r h
  · decide

/-- C2 witness: instance of the preservation statement at a concrete
literal containing a comment opener. -/
theorem c2_literal_preservation_witness :
    scanComments Style.cstyle (dqChar :: "a//b\"".data) =
      (dqChar :: "a//b\"".data) ++ scanComments Style.cstyle [] :=
  c2_literal_preservation.1 dqChar ("a//b\"".data) ("a//b\"".data) []
    (Or.inr (Or.inl rfl)) (by decide)

/-- C4 counterexample input: an unterminated block comment opener followed
by an unterminated string literal followed by a line comment. -/
def c4CexInput : List Char := "/* a\n\"b // c".data

/-- C4 counterexample: on this input the unterminated block comment is not
removed (the output is non-empty and still begins with the opener), and
the unterminated literal does not protect the `// c` that follows it from
being stripped. -/
theorem c4_unterminated_cex :
    processContent true "c" "main.c" c4CexInput = "/* a\n\"b".data
    ∧ "/* a\n\"b".data ≠ ([] : List Char)
    ∧ processContent true "c" "main.c" c4CexInput ≠ c4CexInput := by
  refine ⟨by decide, by decide, by decide⟩

/-- C4 (amended): an unterminated block comment (no subsequent closer) is
not removed — its opener is emitted and scanning continues right after the
first character; an unterminated literal (no closing delimiter anywhere)
is not treated as a protected span — its opening quote is emitted as an
ordinary character and comment stripping continues in the remaining
text. -/
theorem c4_unterminated_behavior :
    (∀ rest : List Char, hasStarSlash rest = false →
        scanComments Style.cstyle ('/' :: '*' :: rest) =
          '/' :: scanComments Style.cstyle ('*' :: rest))
    ∧ (∀ (q : Char) (tail : List Char),
        q = bqChar ∨ q = dqChar ∨ q = sqChar →
        (∀ c ∈ tail, ¬c = q) →
        scanComments Style.cstyle (q :: tail) =
          q :: scanComments Style.cstyle tail) := by
  constructor
  · intro rest h
    show scanText true true false _ = _
    rw [scanText_cons, scanStep_block_none true false rest (blockEndTake_none rest h)]
    simp [scanComments]
  · intro q tail hq hmem
    have hq2 : (q = bqChar ∧ true = true) ∨ q = dqChar ∨ q = sqChar := by
      rcases hq with rfl | rfl | rfl
      · exact Or.inl ⟨rfl, rfl⟩
      · exact Or.inr (Or.inl rfl)
      · exact Or.inr (Or.inr rfl)
    show scanText true true false _ = _
    rw [scanText_cons,
      scanStep_lit_none true true false q hq2 tail
        (litBodyTake_none_of_not_mem tail hmem)]
    simp [scanComments]

/-- C4 witness: instances of both amended statements at concrete inputs. -/
theorem c4_unterminated_behavior_witness :
    scanComments Style.cstyle ('/' :: '*' :: " x".data) =
      '/' :: scanComments Style.cstyle ('*' :: " x".data)
    ∧ scanComments Style.cstyle (dqChar :: "ab".data) =
      dqChar :: scanComments Style.cstyle ("ab".data) :=
  ⟨c4_unterminated_behavior.1 (" x".data) (by decide),
   c4_unterminated_behavior.2 dqChar ("ab".data) (Or.inr (Or.inl rfl)) (by decide)⟩

/-- C5 counterexample input: plain-text content containing a comment-like
substring. -/
def c5CexInput : List Char := "see notes // here".data

/-- C5 counterexample: a `.txt` file — a file the specification's "none"
family would leave untouched — is classified c-style (the default match
arm) and is altered by the clean pipeline. -/
theorem c5_txt_not_passthrough_cex :
    styleOf "txt" "notes.txt" = Style.cstyle
    ∧ processContent true "txt" "notes.txt" c5CexInput ≠ c5CexInput := by
  constructor
  · decide
  · decide

/-- C5 (amended): style classification maps every file into one of exactly
three families (c-style, script-style, php-style); any extension outside
the script list and not `php`, with a file name other than `Dockerfile` or
`Makefile`, defaults to c-style; consequently a plain-text file is
stripped, not passed through, when clean is enabled. -/
theorem c5_three_families :
    (∀ ext fileName : String,
        styleOf ext fileName = Style.cstyle ∨
        styleOf ext fileName = Style.script ∨
        styleOf ext fileName = Style.php)
    ∧ (∀ ext fileName : String, ext ∉ scriptExts → ext ≠ "php" →
        fileName ≠ "Dockerfile" → fileName ≠ "Makefile" →
        styleOf ext fileName = Style.cstyle)
    ∧ processContent true "txt" "notes.txt" c5CexInput = "see notes".data := by
  refine ⟨?_, ?_, by decide⟩
  · intro ext fileName
    cases h : styleOf ext fileName
    · exact Or.inl rfl
    · exact Or.inr (Or.inl rfl)
    · exact Or.inr (Or.inr rfl)
  · intro ext fileName h1 h2 h3 h4
    unfold styleOf
    simp [h1, h2, h3, h4]

/-- C5 witness: instance of the default-family statement at a plain-text
extension. -/
theorem c5_three_families_witness :
    styleOf "txt" "notes.txt" = Style.cstyle :=
  c5_three_families.2.1 "txt" "notes.txt" (by decide) (by decide) (by decide)
    (by decide)

theorem braceSplitGo_decomp :
    ∀ (acc s pre c suf : List Char),
      braceSplitGo acc s = some (pre, c, suf) →
      ∃ mid, pre = acc.reverse ++ mid
        ∧ s = mid ++ obChar :: (c ++ cbChar :: suf)
        ∧ (∀ ch ∈ mid, ¬ch = '\n')
        ∧ c ≠ []
        ∧ (∀ ch ∈ c, ¬ch = obChar ∧ ¬ch = cbChar)
        ∧ (∀ ch ∈ suf, ¬ch = '\n') := by
  intro acc s
  induction acc, s using braceSplitGo.induct with
  | case1 acc => intro pre c suf h; simp [braceSplitGo] at h
  | case2 acc d tail hnl =>
    intro pre c suf h
    rw [braceSplitGo.eq_def] at h
    simp [hnl] at h
  | case3 acc d tail hnl hob rest2 hrest2 ih =>
    intro pre c suf h
    have hr2 : List.dropWhile (fun ch => !(ch == obChar) && !(ch == cbChar)) tail
        = [] := hrest2
    rw [braceSplitGo.eq_def] at h
    simp only [hnl, hob, if_true, if_false, Bool.false_eq_true, hr2] at h
    obtain ⟨mid, h1, h2, h3, h4, h5, h6⟩ := ih pre c suf h
    refine ⟨d :: mid, ?_, by simp [h2], ?_, h4, h5, h6⟩
    · rw [h1]
      simp
    · intro ch hch
      rcases List.mem_cons.mp hch with rfl | hch
      · simpa using hnl
      · exact h3 ch hch
  | case4 acc d tail hnl hob content rest2 d1 suf1 hrest2 hcond =>
    intro pre c suf h
    have hr2 : List.dropWhile (fun ch => !(ch == obChar) && !(ch == cbChar)) tail
        = d1 :: suf1 := hrest2
    have hcond2 : (d1 == cbChar
        && !(List.takeWhile (fun ch => !(ch == obChar) && !(ch == cbChar)) tail).isEmpty
        && suf1.all fun ch => !(ch == '\n')) = true := hcond
    rw [braceSplitGo.eq_def] at h
    simp only [hnl, hob, if_true, if_false, Bool.false_eq_true, hr2, hcond2] at h
    obtain ⟨rfl, rfl, rfl⟩ := by simpa using h
    simp only [Bool.and_eq_true] at hcond2
    obtain ⟨⟨hd, hne⟩, hall⟩ := hcond2
    refine ⟨[], by simp, ?_, by simp, ?_, ?_, ?_⟩
    · have hsplit := List.takeWhile_append_dropWhile
        (p := fun ch => !(ch == obChar) && !(ch == cbChar)) (l := tail)
      rw [hr2] at hsplit
      have hd2 : d1 = cbChar := by simpa using hd
      subst hd2
      have hc0 : d = obChar := by simpa using hob
      subst hc0
      rw [hsplit]
      simp
    · intro hc
      rw [hc] at hne
      simp at hne
    · intro ch hch
      have hmem := List.mem_takeWhile_imp hch
      constructor
      · intro he
        rw [he] at hmem
        simp at hmem
      · intro he
        rw [he] at hmem
        simp at hmem
    · intro ch hch
      have := List.all_eq_true.mp hall ch hch
      simpa using this
  | case5 acc d tail hnl hob content rest2 d1 suf1 hrest2 hcond ih =>
    intro pre c suf h
    have hr2 : List.dropWhile (fun ch => !(ch == obChar) && !(ch == cbChar)) tail
        = d1 :: suf1 := hrest2
    have hcond2 : (d1 == cbChar
        && !(List.takeWhile (fun ch => !(ch == obChar) && !(ch == cbChar)) tail).isEmpty
        && suf1.all fun ch => !(ch == '\n')) = false := by
      rcases Bool.eq_false_or_eq_true (d1 == cbChar
          && !(List.takeWhile (fun ch => !(ch == obChar) && !(ch == cbChar)) tail).isEmpty
          && suf1.all fun ch => !(ch == '\n')) with hx | hx
      · exact absurd hx hcond
      · exact hx
    rw [braceSplitGo.eq_def] at h
    simp only [hnl, hob, if_true, if_false, Bool.false_eq_true, hr2, hcond2] at h
    obtain ⟨mid, h1, h2, h3, h4, h5, h6⟩ := ih pre c suf h
    refine ⟨d :: mid, ?_, by simp [h2], ?_, h4, h5, h6⟩
    · rw [h1]
      simp
    · intro ch hch
      rcases List.mem_cons.mp hch with rfl | hch
      · simpa using hnl
      · exact h3 ch hch
  | case6 acc d tail hnl hob ih =>
    intro pre c suf h
    rw [braceSplitGo.eq_def] at h
    simp only [hnl, hob, if_true, if_false, Bool.false_eq_true] at h
    obtain ⟨mid, h1, h2, h3, h4, h5, h6⟩ := ih pre c suf h
    refine ⟨d :: mid, ?_, by simp [h2], ?_, h4, h5, h6⟩
    · rw [h1]
      simp
    · intro ch hch
      rcases List.mem_cons.mp hch with rfl | hch
      · simpa using hnl
      · exact h3 ch hch

/-- A pattern contains a well-formed brace group in the sense of the Rust
regex `^(.*?)\{([^{}]+)}(.*)$`: a newline-free prefix, a non-empty
brace-free content, a newline-free suffix. -/
def HasGroup (p : List Char) : Prop :=
  ∃ pre c suf, p = pre ++ obChar :: (c ++ cbChar :: suf)
    ∧ c ≠ []
    ∧ (∀ ch ∈ c, ¬ch = obChar ∧ ¬ch = cbChar)
    ∧ (∀ ch ∈ pre, ¬ch = '\n')
    ∧ (∀ ch ∈ suf, ¬ch = '\n')

theorem braceSplit_hasGroup {p : List Char} {pre c suf : List Char}
    (h : braceSplit p = some (pre, c, suf)) : HasGroup p := by
  obtain ⟨mid, h1, h2, h3, h4, h5, h6⟩ := braceSplitGo_decomp [] p pre c suf h
  exact ⟨mid, c, suf, h2, h4, h5, h3, h6⟩

theorem braceSplit_eq_none {p : List Char} (h : ¬HasGroup p) :
    braceSplit p = none := by
  rcases he : braceSplit p with _ | ⟨⟨pre, c, suf⟩⟩
  · rfl
  · exact absurd (braceSplit_hasGroup he) h

theorem obChar_mem_of_some {p : List Char} {pre c suf : List Char}
    (h : braceSplit p = some (pre, c, suf)) : obChar ∈ p := by
  obtain ⟨mid, -, h2, -⟩ := braceSplitGo_decomp [] p pre c suf h
  rw [h2]
  exact List.mem_append_right _ (List.mem_cons_self _ _)

theorem braceSplit_eq_none_of_braceFree {p : List Char}
    (h : braceCount p = 0) : braceSplit p = none := by
  rcases he : braceSplit p with _ | ⟨⟨pre, c, suf⟩⟩
  · rfl
  · exfalso
    have hmem := obChar_mem_of_some he
    rw [braceCount, List.countP_eq_zero] at h
    have := h obChar hmem
    simp at this

theorem expandOne_of_braceFree {p : List Char} (h : braceCount p = 0) :
    expandOne p = [p] := by
  rw [expandOne, h, expandOneAux]

theorem expandOne_of_none {p : List Char} (h : braceSplit p = none) :
    expandOne p = [p] := by
  rw [expandOne]
  rcases braceCount p with _ | n
  · rw [expandOneAux]
  · rw [expandOneAux, h]

theorem flatMap_expandOne_id {l : List (List Char)}
    (h : ∀ p ∈ l, expandOne p = [p]) : l.flatMap expandOne = l := by
  induction l with
  | nil => rfl
  | cons a as ih =>
    rw [List.flatMap_cons, h a (by simp), ih (fun p hp => h p (by simp [hp]))]
    rfl

/-! ### Sorting lemmas -/

theorem lexLe_total (a b : List Char) : lexLe a b = true ∨ lexLe b a = true := by
  induction a generalizing b with
  | nil => exact Or.inl rfl
  | cons a0 as ih =>
    cases b with
    | nil => exact Or.inr rfl
    | cons b0 bs =>
      by_cases he : a0 == b0
      · have he2 : (b0 == a0) = true := by
          have : a0 = b0 := by simpa using he
          simp [this]
        rcases ih bs with h | h
        · exact Or.inl (by rw [lexLe, if_pos he]; exact h)
        · exact Or.inr (by rw [lexLe, if_pos he2]; exact h)
      · have hne : a0 ≠ b0 := by simpa using he
        have he2 : (b0 == a0) = false := by simpa using Ne.symm hne
        rcases lt_or_gt_of_ne hne with h | h
        · exact Or.inl (by rw [lexLe, if_neg (by simpa using he)]; simpa using h)
        · exact Or.inr (by rw [lexLe, if_neg (by simpa using he2)]; simpa using h)

theorem insertLe_perm (a : List Char) (l : List (List Char)) :
    (insertLe a l).Perm (a :: l) := by
  induction l with
  | nil => exact List.Perm.refl _
  | cons b bs ih =>
    rw [insertLe]
    by_cases h : lexLe a b
    · rw [if_pos h]
    · rw [if_neg h]
      exact (ih.cons b).trans (List.Perm.swap a b bs)

theorem sortPatterns_perm (l : List (List Char)) : (sortPatterns l).Perm l := by
  induction l with
  | nil => exact List.Perm.refl _
  | cons a as ih =>
    rw [sortPatterns]
    exact (insertLe_perm a (sortPatterns as)).trans (ih.cons a)

theorem mem_sortPatterns {x : List Char} {l : List (List Char)} :
    x ∈ sortPatterns l ↔ x ∈ l :=
  (sortPatterns_perm l).mem_iff

/-- Sortedness for the pattern order. -/
def PatSorted (l : List (List Char)) : Prop :=
  l.Chain' (fun x y => lexLe x y = true)

theorem patSorted_insertLe (a : List Char) (l : List (List Char))
    (h : PatSorted l) : PatSorted (insertLe a l) := by
  induction l with
  | nil => simp [insertLe, PatSorted]
  | cons b bs ih =>
    rw [insertLe]
    by_cases hab : lexLe a b
    · rw [if_pos hab]
      exact List.Chain'.cons hab h
    · rw [if_neg hab]
      have hba : lexLe b a = true := by
        rcases lexLe_total a b with h1 | h1
        · exact absurd h1 hab
        · exact h1
      have htail : PatSorted bs := h.tail
      rw [PatSorted, List.chain'_cons']
      refine ⟨?_, ih htail⟩
      intro y hy
      cases bs with
      | nil =>
        rw [insertLe] at hy
        simp at hy
        rw [← hy]
        exact hba
      | cons c2 cs =>
        rw [insertLe] at hy
        by_cases hac : lexLe a c2
        · rw [if_pos hac] at hy
          simp at hy
          rw [← hy]
          exact hba
        · rw [if_neg hac] at hy
          simp at hy
          rw [← hy]
          exact (List.chain'_cons.mp h).1

theorem sortPatterns_sorted (l : List (List Char)) :
    PatSorted (sortPatterns l) := by
  induction l with
  | nil => simp [sortPatterns, PatSorted]
  | cons a as ih =>
    rw [sortPatterns]
    exact patSorted_insertLe a _ ih

theorem sortPatterns_eq_self {l : List (List Char)} (h : PatSorted l) :
    sortPatterns l = l := by
  induction l with
  | nil => rfl
  | cons a as ih =>
    rw [sortPatterns, ih h.tail]
    cases as with
    | nil => rfl
    | cons b bs =>
      rw [insertLe, if_pos (List.chain'_cons.mp h).1]


/-- C7: brace expansion of `a/{x,y}/b` yields exactly the two expected
patterns (in sorted order); applying the expansion to a brace-free list is
exactly deduplication plus lexicographic sort, and expanding again is a
no-op (fixed point); and any pattern without a well-formed brace group
(unbalanced or absent braces) passes through unchanged into the result,
with no error. -/
theorem c7_brace_expansion :
    expandBracePatterns [("a/\x7bx,y\x7d/b").data]
        = [("a/x/b").data, ("a/y/b").data]
    ∧ (∀ l : List (List Char), (∀ p ∈ l, braceCount p = 0) →
        expandBracePatterns l = sortPatterns l.dedup
        ∧ expandBracePatterns (expandBracePatterns l) = expandBracePatterns l)
    ∧ (∀ (p : List Char) (l : List (List Char)), p ∈ l → ¬HasGroup p →
        p ∈ expandBracePatterns l) := by
  have key : ∀ m : List (List Char), (∀ p ∈ m, braceCount p = 0) →
      m.Nodup → PatSorted m → expandBracePatterns m = m := by
    intro m h0 hnd hs
    rw [expandBracePatterns,
      flatMap_expandOne_id (fun p hp => expandOne_of_braceFree (h0 p hp)),
      List.dedup_eq_self.mpr hnd]
    exact sortPatterns_eq_self hs
  refine ⟨by decide, ?_, ?_⟩
  · intro l hl
    have hfm : l.flatMap expandOne = l :=
      flatMap_expandOne_id (fun p hp => expandOne_of_braceFree (hl p hp))
    have h1 : expandBracePatterns l = sortPatterns l.dedup := by
      rw [expandBracePatterns, hfm]
    refine ⟨h1, ?_⟩
    have hmem : ∀ p ∈ expandBracePatterns l, braceCount p = 0 := by
      intro p hp
      rw [h1] at hp
      exact hl p (List.mem_dedup.mp (mem_sortPatterns.mp hp))
    have hnd : (expandBracePatterns l).Nodup := by
      rw [h1]
      exact ((sortPatterns_perm _).nodup_iff).mpr (List.nodup_dedup l)
    have hs : PatSorted (expandBracePatterns l) := by
      rw [h1]
      exact sortPatterns_sorted _
    exact key _ hmem hnd hs
  · intro p l hp hng
    rw [expandBracePatterns, mem_sortPatterns, List.mem_dedup, List.mem_flatMap]
    exact ⟨p, hp, by rw [expandOne_of_none (braceSplit_eq_none hng)]; simp⟩

/-- C7 witness: the fixed-point statement at a concrete brace-free list and
the passthrough statement at a concrete unbalanced pattern. -/
theorem c7_brace_expansion_witness :
    (expandBracePatterns ["b".data, "a".data]
        = sortPatterns (["b".data, "a".data]).dedup
      ∧ expandBracePatterns (expandBracePatterns ["b".data, "a".data])
        = expandBracePatterns ["b".data, "a".data])
    ∧ ("a\x7bb").data ∈ expandBracePatterns [("a\x7bb").data] := by
  constructor
  · exact c7_brace_expansion.2.1 ["b".data, "a".data] (by decide)
  · refine c7_brace_expansion.2.2 ("a\x7bb").data [("a\x7bb").data]
      (by simp) ?_
    rintro ⟨pre, c, suf, heq, -, -, -, -⟩
    have hmem : cbChar ∈ ("a\x7bb").data := by
      rw [heq]
      exact List.mem_append_right _ (List.mem_cons_of_mem _
        (List.mem_append_right _ (List.mem_cons_self _ _)))
    revert hmem
    decide


/-! ### Output-directory guard: claims C1 and C10 -/

/-- The run as far as it is modelled here: the guard phase and the
processing phase; in `main` the guard's else-branch only prints a warning
and falls through, so the chunks are computed the same way whether the
wipe happened or was skipped. -/
def mainRun (fs : GuardFS) (srcRaw out : List String) (limit : Nat)
    (preamble : List Char) (items : List (String × List Char)) :
    GuardResult × List (List Char) :=
  (mainGuard fs srcRaw out, mainProcess limit preamble items)

/-- Filesystem oracle for the C1 counterexample: the output parent exists
but canonicalization fails for every path. -/
def c1Fs : GuardFS := GuardFS.mk (fun p => p == ["out"]) (fun _ => none)

/-- C1 counterexample: canonicalization fails for both the output parent
and the source, yet the guard still wipes the output directory — the code
falls back to comparing the raw paths (`unwrap_or`) instead of treating
the operation as unsafe and skipping the deletion. -/
theorem c1_canon_failure_still_wipes_cex :
    c1Fs.canon ["out"] = none
    ∧ c1Fs.canon ["src"] = none
    ∧ (mainGuard c1Fs ["src"] ["out", "d.txt"]).wiped = some ["out"] := by
  refine ⟨rfl, rfl, by decide⟩

/-- C1 (amended): the wipe happens exactly when the out pattern has a
parent that exists and is not ".", and the output parent is neither equal
to nor a component-prefix of the source root when both are compared in
fallback-canonical form (the canonical path when canonicalization
succeeds, the raw path otherwise — canonicalization failure does NOT skip
the deletion); and the chunks the run writes do not depend on the guard's
filesystem oracle or paths, so processing proceeds identically when the
guard blocks the deletion. -/
theorem c1_guard_behavior :
    (∀ (fs : GuardFS) (srcRaw out : List String),
        (mainGuard fs srcRaw out).wiped.isSome = true ↔
          ∃ parent, pathParent out = some parent
            ∧ fs.pathExists parent = true
            ∧ parent ≠ ["."]
            ∧ guardSafe fs (fallbackCanon fs srcRaw) parent = true)
    ∧ (∀ (fs fs2 : GuardFS) (srcRaw srcRaw2 out out2 : List String)
        (limit : Nat) (preamble : List Char)
        (items : List (String × List Char)),
        (mainRun fs srcRaw out limit preamble items).2 =
          (mainRun fs2 srcRaw2 out2 limit preamble items).2) := by
  constructor
  · intro fs srcRaw out
    rw [mainGuard, outputDirGuard]
    rcases hp : pathParent out with _ | parent
    · simp
    · simp only [hp, Option.some.injEq]
      constructor
      · intro h
        by_cases hex : fs.pathExists parent
        · by_cases hdot : parent = ["."]
          · subst hdot
            simp at h
            split at h <;> simp at h
          · by_cases hsafe : guardSafe fs (fallbackCanon fs srcRaw) parent
            · exact ⟨parent, rfl, hex, hdot, hsafe⟩
            · simp [hex, hdot, hsafe] at h
        · simp [hex] at h
          split at h <;> simp at h
      · rintro ⟨parent2, rfl, hex, hdot, hsafe⟩
        simp [hex, hdot, hsafe]
  · intro fs fs2 srcRaw srcRaw2 out out2 limit preamble items
    rfl

/-- C1 witness: the guard characterization applied at a concrete scenario
in which the wipe fires. -/
theorem c1_guard_behavior_witness :
    (mainGuard c1Fs ["src"] ["out", "d.txt"]).wiped.isSome = true :=
  (c1_guard_behavior.1 c1Fs ["src"] ["out", "d.txt"]).mpr
    ⟨["out"], by decide, by decide, by decide, by decide⟩

/-- Filesystem oracle for the C10 counterexample: directory `x/..` exists
and canonicalizes — like `.` — to the working directory `/home/u`; the
source lives outside it. -/
def c10Fs : GuardFS :=
  GuardFS.mk (fun p => p == ["x", ".."])
    (fun p =>
      if p == ["x", ".."] then some ["home", "u"]
      else if p == ["."] then some ["home", "u"]
      else if p == ["elsewhere", "src"] then some ["elsewhere", "src"]
      else none)

/-- C10 counterexample: with out pattern `x/../y.txt` the parent component
is `x/..`, which exists and is not ".", so the recursive wipe is attempted
and allowed (the source is outside), even though `x/..` denotes the
current working directory (it has the same canonical path as "."): the
cwd is wiped. -/
theorem c10_cwd_wiped_cex :
    (mainGuard c10Fs ["elsewhere", "src"] ["x", "..", "y.txt"]).wiped
        = some ["x", ".."]
    ∧ c10Fs.canon ["x", ".."] = c10Fs.canon ["."]
    ∧ (c10Fs.canon ["x", ".."]).isSome = true := by
  refine ⟨by decide, by decide, by decide⟩

/-- C10 (amended): the recursive wipe is attempted only on a parent that
already exists and is not "."; for a parent that is absent, empty, or ".",
nothing is deleted and an absent non-empty parent is only created.  The
working directory is however not protected in general: a parent spelled as
an alias of the cwd (such as one containing "..") passes the guard. -/
theorem c10_parent_guard :
    (∀ (fs : GuardFS) (srcRaw out d : List String),
        (mainGuard fs srcRaw out).wiped = some d →
        pathParent out = some d ∧ fs.pathExists d = true ∧ d ≠ ["."])
    ∧ (∀ (fs : GuardFS) (srcRaw out parent : List String),
        pathParent out = some parent →
        fs.pathExists parent = false ∨ parent = ["."] →
        (mainGuard fs srcRaw out).wiped = none
        ∧ (mainGuard fs srcRaw out).created =
            (if fs.pathExists parent = false ∧ parent ≠ [] then some parent
             else none)) := by
  constructor
  · intro fs srcRaw out d h
    rw [mainGuard, outputDirGuard] at h
    rcases hp : pathParent out with _ | parent
    · rw [hp] at h
      simp at h
    · rw [hp] at h
      by_cases hex : fs.pathExists parent
      · by_cases hdot : parent = ["."]
        · subst hdot
          simp at h
          split at h <;> simp at h
        · by_cases hsafe : guardSafe fs (fallbackCanon fs srcRaw) parent
          · simp [hex, hdot, hsafe] at h
            subst h
            exact ⟨rfl, hex, hdot⟩
          · simp [hex, hdot, hsafe] at h
      · simp [hex] at h
        split at h <;> simp at h
  · intro fs srcRaw out parent hp hcond
    rw [mainGuard, outputDirGuard, hp]
    rcases hcond with hex | hdot
    · by_cases hemp : parent = []
      · subst hemp
        simp [hex]
      · simp [hex, hemp]
    · subst hdot
      by_cases hex : fs.pathExists ["."]
      · simp [hex]
      · simp [hex]

/-- C10 witness: the attempted-wipe direction at the concrete alias
scenario, and the no-wipe direction at a concrete absent parent. -/
theorem c10_parent_guard_witness :
    (pathParent ["x", "..", "y.txt"] = some ["x", ".."]
      ∧ c10Fs.pathExists ["x", ".."] = true ∧ ["x", ".."] ≠ ["."])
    ∧ ((mainGuard c1Fs ["s"] ["d", "o.txt"]).wiped = none
      ∧ (mainGuard c1Fs ["s"] ["d", "o.txt"]).created =
          (if c1Fs.pathExists ["d"] = false ∧ ["d"] ≠ [] then some ["d"]
           else none)) :=
  ⟨c10_parent_guard.1 c10Fs ["elsewhere", "src"] ["x", "..", "y.txt"]
      ["x", ".."] (by decide),
   c10_parent_guard.2 c1Fs ["s"] ["d", "o.txt"] ["d"] (by decide)
      (Or.inl (by decide))⟩

/-! ### Tree renderer filter: claim C6 -/

/-- C6 counterexample: with exclude pattern `vendor/bin`, the File
Selector excludes the entry at path `vendor/bin` (separator-substring
rule), but the tree renderer does not hide the corresponding entry named
`bin` — the two rule sets differ. -/
theorem c6_tree_filter_cex :
    isExcludedEntry ["vendor", "bin"] 2 ["vendor/bin"] = true
    ∧ treeEntryHidden "bin" ["vendor/bin"] = false := by
  refine ⟨by decide, by decide⟩

/-- C6 (amended): the tree renderer hides exactly the dot-prefixed entries
and the entries whose name equals an exclude pattern verbatim.  Every
non-dot entry it hides would also be pruned by the File Selector's
exact-component rule (for any path ending in that entry's name), but the
tree renderer does not apply the selector's separator-substring rule. -/
theorem c6_tree_subset_of_selector :
    ∀ (name : String) (excludes : List String) (anc : List String)
      (depth : Nat),
      treeEntryHidden name excludes = true →
      (match name.data with
        | c :: _ => c == '.'
        | [] => false) = true
      ∨ isExcludedEntry (anc ++ [name]) depth excludes = true := by
  intro name excludes anc depth h
  rw [treeEntryHidden] at h
  rw [Bool.or_eq_true] at h
  rcases h with hdot | hany
  · exact Or.inl hdot
  · right
    obtain ⟨ex, hmem, hbe⟩ := List.any_eq_true.mp hany
    rw [isExcludedEntry]
    rw [Bool.or_eq_true]
    right
    apply List.any_eq_true.mpr
    refine ⟨ex, hmem, ?_⟩
    rw [Bool.or_eq_true]
    exact Or.inl (List.any_eq_true.mpr ⟨name, by simp, hbe⟩)

/-- C6 witness: the subset direction at a concrete excluded name. -/
theorem c6_tree_subset_of_selector_witness :
    (match "node_modules".data with
      | c :: _ => c == '.'
      | [] => false) = true
    ∨ isExcludedEntry (["src"] ++ ["node_modules"]) 1 ["node_modules"]
        = true :=
  c6_tree_subset_of_selector "node_modules" ["node_modules"] ["src"] 1
    (by decide)


/-! ### Aggregation lemmas: claims C3 and C9 -/

theorem contribOf_ne_nil (p : String) (content : List Char) :
    contribOf p content ≠ [] := by
  simp [contribOf, headerOf]

theorem aggFold_buffer_ne_nil (limit : Nat) :
    ∀ (items : List (String × List Char)) (st : AggState),
      st.buffer ≠ [] →
      (items.foldl (aggStep limit) st).buffer ≠ [] := by
  intro items
  induction items with
  | nil => intro st h; exact h
  | cons it rest ih =>
    intro st h
    rw [List.foldl_cons]
    apply ih
    rw [aggStep]
    by_cases he : it.2.isEmpty
    · simpa [he] using h
    · simp only [he, if_false, Bool.false_eq_true]
      split <;> simp [contribOf_ne_nil]

theorem aggRun_ne_nil (limit : Nat) (preamble : List Char)
    (items : List (String × List Char)) (h : preamble ≠ []) :
    aggRun limit preamble items ≠ [] := by
  rw [aggRun]
  have hb := aggFold_buffer_ne_nil limit items (AggState.mk preamble []) h
  simp only [List.isEmpty_iff, hb, if_false]
  simp

/-- C9: the run writes an output file if and only if at least one file was
selected; with zero selected files it returns before the chunk buffer (and
its tree preamble) is even created, so nothing at all is written, and
conversely with a non-empty selection at least one chunk is always
written. -/
theorem c9_no_output_without_files (limit : Nat) (preamble : List Char)
    (items : List (String × List Char)) (h : preamble ≠ []) :
    (mainProcess limit preamble items = [] ↔ items = []) := by
  constructor
  · intro hm
    rw [mainProcess] at hm
    by_cases hi : items.length == 0
    · exact List.length_eq_zero.mp (by simpa using hi)
    · rw [if_neg hi] at hm
      exact absurd hm (aggRun_ne_nil limit preamble items h)
  · intro hi
    subst hi
    rfl

-- total
def bufTotal (st : AggState) : Nat :=
  (st.chunks.map List.length).sum + st.buffer.length

theorem aggStep_total (limit : Nat) (st : AggState) (it : String × List Char) :
    bufTotal (aggStep limit st it) =
      bufTotal st + (if it.2.isEmpty then 0 else (contribOf it.1 it.2).length) := by
  rw [aggStep]
  by_cases he : it.2.isEmpty
  · simp [he]
  · simp only [he, if_false, Bool.false_eq_true]
    split <;> (simp [bufTotal]; try omega)

theorem aggFold_total (limit : Nat) :
    ∀ (items : List (String × List Char)) (st : AggState),
      bufTotal (items.foldl (aggStep limit) st) =
        bufTotal st +
          ((items.filter (fun it => !it.2.isEmpty)).map
            (fun it => (contribOf it.1 it.2).length)).sum := by
  intro items
  induction items with
  | nil => intro st; simp
  | cons it rest ih =>
    intro st
    rw [List.foldl_cons, ih, aggStep_total]
    by_cases he : it.2.isEmpty
    · simp [he, List.filter_cons]
    · simp [he, List.filter_cons]
      omega

def ChunkOK (limit : Nat) (preamble : List Char)
    (items : List (String × List Char)) (ch : List Char) : Prop :=
  ch.length ≤ limit ∨ ch = preamble
  ∨ ∃ it ∈ items, it.2 ≠ [] ∧ ch = contribOf it.1 it.2

theorem aggFold_ok (limit : Nat) (preamble : List Char)
    (itemsAll : List (String × List Char)) :
    ∀ (items : List (String × List Char)) (st : AggState),
      items ⊆ itemsAll →
      (∀ ch ∈ st.chunks, ChunkOK limit preamble itemsAll ch) →
      ChunkOK limit preamble itemsAll st.buffer →
      (∀ ch ∈ (items.foldl (aggStep limit) st).chunks,
          ChunkOK limit preamble itemsAll ch)
      ∧ ChunkOK limit preamble itemsAll
          (items.foldl (aggStep limit) st).buffer := by
  intro items
  induction items with
  | nil => intro st _ hc hb; exact ⟨hc, hb⟩
  | cons it rest ih =>
    intro st hsub hc hb
    rw [List.foldl_cons]
    have hitAll : it ∈ itemsAll := hsub (by simp)
    have hsub2 : rest ⊆ itemsAll := fun x hx => hsub (by simp [hx])
    apply ih _ hsub2
    · -- chunks of (aggStep limit st it) are OK
      intro ch hch
      rw [aggStep] at hch
      by_cases he : it.2.isEmpty
      · rw [if_pos he] at hch
        exact hc ch hch
      · rw [if_neg (by simp [he])] at hch
        simp only at hch
        split at hch
        · simp only at hch
          rcases List.mem_append.mp hch with hch | hch
          · exact hc ch hch
          · rw [List.mem_singleton] at hch
            subst hch
            exact hb
        · exact hc ch hch
    · -- buffer of (aggStep limit st it) is OK
      rw [aggStep]
      by_cases he : it.2.isEmpty
      · rw [if_pos he]
        exact hb
      · rw [if_neg (by simp [he])]
        simp only
        have hcontrib : ChunkOK limit preamble itemsAll (contribOf it.1 it.2) :=
          Or.inr (Or.inr ⟨it, hitAll, by simpa using he, rfl⟩)
        split
        · simpa using hcontrib
        next hcond =>
          rcases Bool.eq_false_or_eq_true st.buffer.isEmpty with hbe | hbe
          · -- buffer empty: result is exactly the contribution
            have hbnil : st.buffer = [] := by simpa [List.isEmpty_iff] using hbe
            rw [hbnil]
            simpa using hcontrib
          · -- buffer non-empty: the flush condition failed, so it fits
            have hbne : st.buffer ≠ [] := by
              intro hh
              rw [hh] at hbe
              simp at hbe
            have hfit : st.buffer.length + (contribOf it.1 it.2).length ≤ limit := by
              by_contra hgt
              apply hcond
              simp [List.isEmpty_iff, hbne]
              omega
            left
            simp
            omega

theorem aggRun_ok (limit : Nat) (preamble : List Char)
    (items : List (String × List Char)) :
    ∀ ch ∈ aggRun limit preamble items, ChunkOK limit preamble items ch := by
  intro ch hch
  rw [aggRun] at hch
  obtain ⟨hc, hb⟩ := aggFold_ok limit preamble items items
    (AggState.mk preamble []) (fun x hx => hx) (by simp)
    (Or.inr (Or.inl rfl))
  split at hch
  · exact hc ch hch
  · rcases List.mem_append.mp hch with hch | hch
    · exact hc ch hch
    · rw [List.mem_singleton] at hch
      subst hch
      exact hb

def AggRel (st : AggState) (stU : AggStateU) : Prop :=
  st.buffer = stU.buffer.flatten
  ∧ st.chunks = stU.chunks.map List.flatten
  ∧ (∀ u ∈ stU.buffer, u ≠ [])

theorem flatten_nonempty_units {l : List (List Char)} (h : ∀ u ∈ l, u ≠ []) :
    (l.flatten.isEmpty) = l.isEmpty := by
  cases l with
  | nil => rfl
  | cons u us =>
    have hu := h u (by simp)
    simp [List.isEmpty_iff]
    intro hx
    exact absurd hx hu

theorem aggStep_rel (limit : Nat) (st : AggState) (stU : AggStateU)
    (it : String × List Char) (h : AggRel st stU) :
    AggRel (aggStep limit st it) (aggStepU limit stU it) := by
  obtain ⟨hb, hc, hu⟩ := h
  rw [aggStep, aggStepU]
  by_cases he : it.2.isEmpty
  · simpa [he] using ⟨hb, hc, hu⟩
  · simp only [he, if_false, Bool.false_eq_true]
    have hlen : st.buffer.length = (stU.buffer.map List.length).sum := by
      rw [hb, List.length_flatten]
    have hemp : st.buffer.isEmpty = stU.buffer.isEmpty := by
      rw [hb]
      exact flatten_nonempty_units hu
    by_cases hcond : (!stU.buffer.isEmpty &&
        decide ((stU.buffer.map List.length).sum + (contribOf it.1 it.2).length > limit))
    · rw [if_pos (by rw [hemp, hlen]; exact hcond), if_pos hcond]
      refine ⟨?_, ?_, ?_⟩
      · simp
      · simp [hc, hb]
      · intro u hu2
        simp at hu2
        subst hu2
        exact contribOf_ne_nil _ _
    · rw [if_neg (by rw [hemp, hlen]; exact hcond), if_neg hcond]
      refine ⟨?_, hc, ?_⟩
      · simp [hb]
      · intro u hu2
        rcases List.mem_append.mp hu2 with hu2 | hu2
        · exact hu u hu2
        · rw [List.mem_singleton] at hu2
          subst hu2
          exact contribOf_ne_nil _ _

theorem aggFold_rel (limit : Nat) :
    ∀ (items : List (String × List Char)) (st : AggState) (stU : AggStateU),
      AggRel st stU →
      AggRel (items.foldl (aggStep limit) st) (items.foldl (aggStepU limit) stU) := by
  intro items
  induction items with
  | nil => intro st stU h; exact h
  | cons it rest ih =>
    intro st stU h
    rw [List.foldl_cons, List.foldl_cons]
    exact ih _ _ (aggStep_rel limit st stU it h)

theorem aggRun_units (limit : Nat) (preamble : List Char)
    (items : List (String × List Char)) (h : preamble ≠ []) :
    aggRun limit preamble items = (aggRunU limit [preamble] items).map List.flatten := by
  rw [aggRun, aggRunU]
  have hrel := aggFold_rel limit items (AggState.mk preamble [])
    (AggStateU.mk [preamble] [])
    ⟨by simp, by simp, by intro u hu; rw [List.mem_singleton] at hu; subst hu; exact h⟩
  obtain ⟨hb, hc, hu⟩ := hrel
  have hemp : (items.foldl (aggStep limit) (AggState.mk preamble [])).buffer.isEmpty
      = (items.foldl (aggStepU limit) (AggStateU.mk [preamble] [])).buffer.isEmpty := by
    rw [hb]
    exact flatten_nonempty_units hu
  rw [hemp]
  split
  · exact hc
  · simp [hc, hb]

/-- C3 (amended): every written chunk either stays within the byte limit,
or is the tree preamble alone (the preamble is flushed by itself when the
first append would overflow, and it may exceed any limit), or is exactly
one file's header+content+newline contribution (an oversized file occupies
its own chunk); the sum of all chunk sizes equals the preamble size plus
the sum of the included (non-empty) files' contributions; and each chunk
is a concatenation of whole units — the preamble and whole per-file
contributions — so the limit is honored by flushing before appending,
never by truncating an appended file. -/
theorem c3_chunk_invariants (limit : Nat) (preamble : List Char)
    (items : List (String × List Char)) (h : preamble ≠ []) :
    (∀ ch ∈ aggRun limit preamble items,
        ch.length ≤ limit ∨ ch = preamble
        ∨ ∃ it ∈ items, it.2 ≠ [] ∧ ch = contribOf it.1 it.2)
    ∧ ((aggRun limit preamble items).map List.length).sum =
        preamble.length +
          ((items.filter (fun it => !it.2.isEmpty)).map
            (fun it => (contribOf it.1 it.2).length)).sum
    ∧ aggRun limit preamble items =
        (aggRunU limit [preamble] items).map List.flatten := by
  refine ⟨aggRun_ok limit preamble items, ?_, aggRun_units limit preamble items h⟩
  have htot := aggFold_total limit items (AggState.mk preamble [])
  rw [aggRun]
  have hb := aggFold_buffer_ne_nil limit items (AggState.mk preamble []) h
  simp only [List.isEmpty_iff, hb, if_false]
  simp only [List.map_append, List.sum_append]
  rw [bufTotal] at htot
  simp [bufTotal] at htot
  simp
  omega

/-- A 40-byte stand-in for the tree preamble of the C3 counterexample. -/
def c3Pre : List Char := List.replicate 40 'z'

/-- C3 counterexample: with byte limit 30 and a preamble of 40 bytes, the
first written chunk is the preamble alone (40 > 30 bytes) although the
only file's header+content contribution is 21 bytes, well within the
limit — the claim "no chunk exceeds L unless a single file's own
header+content alone exceeds L" fails on the preamble-bearing chunk. -/
theorem c3_preamble_chunk_cex :
    aggRun 30 c3Pre [("a", ['b'])] = [c3Pre, contribOf "a" ['b']]
    ∧ 30 < c3Pre.length
    ∧ (contribOf "a" ['b']).length ≤ 30 := by
  refine ⟨by decide, by decide, by decide⟩

/-- C3 witness: the sum equation at a concrete limit, preamble and file
list. -/
theorem c3_chunk_invariants_witness :
    ((aggRun 30 c3Pre [("a", ['b'])]).map List.length).sum =
      c3Pre.length + (([("a", ['b'])].filter (fun it => !it.2.isEmpty)).map
        (fun it => (contribOf it.1 it.2).length)).sum :=
  (c3_chunk_invariants 30 c3Pre [("a", ['b'])] (by decide)).2.1

/-- C9 witness: the equivalence applied at a concrete empty selection. -/
theorem c9_no_output_without_files_witness : mainProcess 100 ['z'] [] = [] :=
  (c9_no_output_without_files 100 ['z'] [] (by decide)).mpr rfl


/-! ### Selection lemmas: claim C8 -/

theorem selectFromWalk_eq_aux (targetExt : String) (includes : List String) :
    ∀ (walk : List WalkEntry) (acc : List String),
      walk.foldl
        (fun acc e =>
          if e.isFile && (matchesExt targetExt e || matchesInclude includes e)
          then acc ++ [pathStrOf e] else acc) acc
        = acc ++ (walk.filter
            (fun e => e.isFile &&
              (matchesExt targetExt e || matchesInclude includes e))).map
            pathStrOf := by
  intro walk
  induction walk with
  | nil => intro acc; simp
  | cons e rest ih =>
    intro acc
    rw [List.foldl_cons, List.filter_cons]
    by_cases hq : (e.isFile && (matchesExt targetExt e || matchesInclude includes e))
    · rw [if_pos hq, ih, if_pos hq]
      simp
    · rw [if_neg hq, ih, if_neg hq]

theorem selectFromWalk_eq (targetExt : String) (includes : List String)
    (walk : List WalkEntry) :
    selectFromWalk targetExt includes walk
      = (walk.filter
          (fun e => e.isFile &&
            (matchesExt targetExt e || matchesInclude includes e))).map
          pathStrOf := by
  rw [selectFromWalk, selectFromWalk_eq_aux]
  simp

theorem selectFromWalk_count_one (targetExt : String) (includes : List String)
    (walk : List WalkEntry) (e : WalkEntry)
    (hnodup : (walk.map pathStrOf).Nodup) (hmem : e ∈ walk)
    (hfile : e.isFile = true)
    (hext : matchesExt targetExt e = true)
    (hinc : matchesInclude includes e = true) :
    (selectFromWalk targetExt includes walk).count (pathStrOf e) = 1 := by
  rw [selectFromWalk_eq]
  have hsub : ((walk.filter
      (fun e => e.isFile &&
        (matchesExt targetExt e || matchesInclude includes e))).map
      pathStrOf).Sublist (walk.map pathStrOf) :=
    (List.filter_sublist walk).map pathStrOf
  have hnd := hsub.nodup hnodup
  have hmem2 : pathStrOf e ∈ (walk.filter
      (fun e => e.isFile &&
        (matchesExt targetExt e || matchesInclude includes e))).map pathStrOf := by
    apply List.mem_map_of_mem
    rw [List.mem_filter]
    exact ⟨hmem, by simp [hfile, hext, hinc]⟩
  exact List.count_eq_one_of_mem hnd hmem2

theorem externalStep_countP (fs : SelFS) (c : String) (acc : List String)
    (inc : String) (h : acc.countP (fun p => fs.canon p == some c) = 1) :
    (externalStep fs acc inc).countP (fun p => fs.canon p == some c) = 1 := by
  rw [externalStep]
  by_cases hex : fs.existsFile inc
  · rw [if_pos hex]
    by_cases hany : acc.any (fun p =>
        match fs.canon p with
        | some cp => cp == ((fs.canon inc).getD inc)
        | none => false)
    · simp only [hany, if_true]
      exact h
    · simp only [hany, if_false, Bool.false_eq_true]
      rw [List.countP_append, h]
      have hpred : (fs.canon inc == some c) = false := by
        rcases Bool.eq_false_or_eq_true (fs.canon inc == some c) with hp | hp
        · -- pred true: contradiction with hany = false
          exfalso
          have hcanon : fs.canon inc = some c := by simpa using hp
          obtain ⟨p, hpmem, hpp⟩ := List.countP_pos_iff.mp (by rw [h]; omega)
          apply hany
          rw [List.any_eq_true]
          refine ⟨p, hpmem, ?_⟩
          have hpc : fs.canon p = some c := by simpa using hpp
          rw [hpc, hcanon]
          simp
        · exact hp
      simp [hpred]
  · rw [if_neg hex]
    exact h

theorem addExternal_countP (fs : SelFS) (c : String) :
    ∀ (includes : List String) (selected : List String),
      selected.countP (fun p => fs.canon p == some c) = 1 →
      (addExternalIncludes fs includes selected).countP
        (fun p => fs.canon p == some c) = 1 := by
  intro includes
  induction includes with
  | nil => intro selected h; exact h
  | cons inc rest ih =>
    intro selected h
    rw [addExternalIncludes, List.foldl_cons]
    exact ih _ (externalStep_countP fs c selected inc h)

/-- C8: every file is processed at most once.  A file reachable in the
walk that matches both the extension rule and an include rule is appended
exactly once (one push per walk entry), and when the same file is also
supplied as an explicit include under a distinct but canonically-equal
path, the external-include pass never adds a second entry for that
canonical identity: the final processed-file list holds exactly one path
whose canonical form is the file's. -/
theorem c8_dedup_by_canonical_path (fs : SelFS) (targetExt : String)
    (includes : List String) (walk : List WalkEntry) (e : WalkEntry)
    (c : String)
    (hnodup : (walk.map pathStrOf).Nodup)
    (hmem : e ∈ walk) (hfile : e.isFile = true)
    (hext : matchesExt targetExt e = true)
    (hinc : matchesInclude includes e = true)
    (hcanon : fs.canon (pathStrOf e) = some c)
    (huniq : ∀ p ∈ selectFromWalk targetExt includes walk,
        fs.canon p = some c → p = pathStrOf e) :
    (selectFromWalk targetExt includes walk).count (pathStrOf e) = 1
    ∧ (selectAll fs targetExt includes walk).countP
        (fun p => fs.canon p == some c) = 1 := by
  have hcount := selectFromWalk_count_one targetExt includes walk e hnodup
    hmem hfile hext hinc
  refine ⟨hcount, ?_⟩
  rw [selectAll]
  apply addExternal_countP
  have hcong : (selectFromWalk targetExt includes walk).countP
      (fun p => fs.canon p == some c)
      = (selectFromWalk targetExt includes walk).countP
        (fun p => p == pathStrOf e) := by
    apply List.countP_congr
    intro p hp
    constructor
    · intro hpc
      have : fs.canon p = some c := by simpa using hpc
      have := huniq p hp this
      simp [this]
    · intro hpe
      have : p = pathStrOf e := by simpa using hpe
      subst this
      simp [hcanon]
  rw [hcong, ← List.count_eq_countP]
  exact hcount

/-- Filesystem oracle for the C8 witness: `link.rs` exists out of tree and
canonicalizes to the same file as the walked `a/f.rs`. -/
def c8Fs : SelFS :=
  SelFS.mk (fun p => p == "link.rs")
    (fun p =>
      if p == "a/f.rs" then some "/c/f.rs"
      else if p == "link.rs" then some "/c/f.rs"
      else none)

/-- The walked file of the C8 witness. -/
def c8Entry : WalkEntry := WalkEntry.mk ["a", "f.rs"] true

/-- C8 witness: the dedup statement at a concrete walk in which `f.rs`
matches both rules and `link.rs` is a canonically-equal external
include. -/
theorem c8_dedup_by_canonical_path_witness :
    (selectFromWalk "rs" ["f.rs", "link.rs"] [c8Entry]).count
        (pathStrOf c8Entry) = 1
    ∧ (selectAll c8Fs "rs" ["f.rs", "link.rs"] [c8Entry]).countP
        (fun p => c8Fs.canon p == some "/c/f.rs") = 1 :=
  c8_dedup_by_canonical_path c8Fs "rs" ["f.rs", "link.rs"] [c8Entry]
    c8Entry "/c/f.rs" (by decide) (by decide) (by decide) (by decide)
    (by decide) (by decide) (by decide)

end CodebaseDumper
